import Mathlib

/-!
Verification of the Grover's-algorithm hash-cracking demo.

This file gives a shallow embedding of the core logic of the repository's
`QuantumHashCracker` class (files `grover.py` and `groover1.py`):

* the mixed-radix string/index codec `text_to_index` / `index_to_text`;
* the search-space arithmetic of `quantum_search` (qubit count and Grover
  iteration count);
* the gate sequences emitted by `_oracle` and `_diffusion`, together with an
  exact state-vector semantics for the gates used (`h`, `x`, `mcx`);
* the measurement-distribution interpretation at the end of `quantum_search`;
* the backend save/restore discipline of `quantum_search_aer` and
  `quantum_search_ibm`;
* the classical brute-force scan `classical_bruteforce`.

Theorems about these definitions settle the specification claims.
-/

namespace GroverDemo

/-- The fixed character set built in `QuantumHashCracker.__init__`:
`string.ascii_lowercase + string.ascii_uppercase + string.digits`. -/
def charset : List Char :=
  ['a', 'b', 'c', 'd', 'e', 'f', 'g', 'h', 'i', 'j', 'k', 'l', 'm',
   'n', 'o', 'p', 'q', 'r', 's', 't', 'u', 'v', 'w', 'x', 'y', 'z',
   'A', 'B', 'C', 'D', 'E', 'F', 'G', 'H', 'I', 'J', 'K', 'L', 'M',
   'N', 'O', 'P', 'Q', 'R', 'S', 'T', 'U', 'V', 'W', 'X', 'Y', 'Z',
   '0', '1', '2', '3', '4', '5', '6', '7', '8', '9']

/-- Accumulation loop of `text_to_index`:
`for i, char in enumerate(reversed(text)): index += charset.index(char) * base ** i`.
The second argument is the list still to be processed (the reversed text) and
the third is the running position `i`. -/
def t2iAux (cs : List Char) : List Char → ℕ → ℕ
  | [], _ => 0
  | c :: rest, i => cs.indexOf c * cs.length ^ i + t2iAux cs rest (i + 1)

/-- `QuantumHashCracker.text_to_index`: base-`len(charset)` interpretation of a
string, most significant character first. -/
def text_to_index (cs : List Char) (text : List Char) : ℕ :=
  t2iAux cs text.reverse 0

/-- Digit-emission loop of `index_to_text`:
`for _ in range(length): text.append(charset[index % base]); index //= base`.
Builds the digits least significant first. -/
def i2tAux (cs : List Char) : ℕ → ℕ → List Char
  | _, 0 => []
  | index, L + 1 => cs.getD (index % cs.length) 'a' :: i2tAux cs (index / cs.length) L

/-- `QuantumHashCracker.index_to_text`: emit `length` base-`len(charset)`
digits of `index` and reverse them into most-significant-first order. -/
def index_to_text (cs : List Char) (index length : ℕ) : List Char :=
  (i2tAux cs index length).reverse

/-- `QuantumHashCracker.calculate_search_space`: `len(self.charset) ** length`. -/
def calculate_search_space (cs : List Char) (length : ℕ) : ℕ :=
  cs.length ^ length

/-- Qubit count computed in `quantum_search`:
`math.ceil(math.log2(search_space))`, with the floating-point `log2` modelled
as the exact real base-2 logarithm. -/
noncomputable def n_qubits (N : ℕ) : ℕ :=
  (Int.ceil (Real.logb 2 N)).toNat

/-- Grover iteration count computed in `quantum_search`:
`max(1, int(math.pi / 4 * math.sqrt(search_space)))`, with float arithmetic
modelled as exact real arithmetic; `int()` truncates, which for a nonnegative
value is `Int.floor` followed by `Int.toNat`. -/
noncomputable def optimal_iterations (N : ℕ) : ℕ :=
  max 1 (Int.toNat (Int.floor (Real.pi / 4 * Real.sqrt N)))

/-! ### Codec lemmas -/

theorem t2iAux_succ (cs : List Char) (l : List Char) (k : ℕ) :
    t2iAux cs l (k + 1) = cs.length * t2iAux cs l k := by
  induction l generalizing k with
  | nil => simp [t2iAux]
  | cons c rest ih =>
      simp only [t2iAux, ih (k + 1), pow_succ]
      ring

theorem t2iAux_cons (cs : List Char) (c : Char) (rest : List Char) :
    t2iAux cs (c :: rest) 0 = cs.indexOf c + cs.length * t2iAux cs rest 0 := by
  simp [t2iAux, t2iAux_succ]

theorem t2iAux_append (cs : List Char) (l₁ l₂ : List Char) (k : ℕ) :
    t2iAux cs (l₁ ++ l₂) k = t2iAux cs l₁ k + t2iAux cs l₂ (k + l₁.length) := by
  induction l₁ generalizing k with
  | nil => simp [t2iAux]
  | cons c rest ih =>
      simp only [List.cons_append, t2iAux, List.length_cons, List.append_eq,
        ih (k + 1)]
      have harg : k + 1 + rest.length = k + (rest.length + 1) := by omega
      rw [harg]
      ring

theorem text_to_index_cons (cs : List Char) (c : Char) (s : List Char) :
    text_to_index cs (c :: s) =
      cs.indexOf c * cs.length ^ s.length + text_to_index cs s := by
  simp only [text_to_index, List.reverse_cons, t2iAux_append, t2iAux,
    List.length_reverse, Nat.zero_add]
  ring

theorem t2iAux_lt (cs : List Char) (l : List Char) (h : ∀ c ∈ l, c ∈ cs) :
    t2iAux cs l 0 < cs.length ^ l.length := by
  induction l with
  | nil => simp [t2iAux]
  | cons c rest ih =>
      have hc : cs.indexOf c < cs.length :=
        List.indexOf_lt_length.mpr (h c (List.mem_cons_self c rest))
      have ht : t2iAux cs rest 0 < cs.length ^ rest.length :=
        ih (fun x hx => h x (List.mem_cons_of_mem c hx))
      rw [t2iAux_cons, List.length_cons, pow_succ']
      calc cs.indexOf c + cs.length * t2iAux cs rest 0
          < cs.length + cs.length * t2iAux cs rest 0 := by omega
        _ = cs.length * (t2iAux cs rest 0 + 1) := by ring
        _ ≤ cs.length * cs.length ^ rest.length :=
            Nat.mul_le_mul_left _ (by omega)

theorem text_to_index_lt (cs : List Char) (s : List Char)
    (h : ∀ c ∈ s, c ∈ cs) :
    text_to_index cs s < cs.length ^ s.length := by
  have := t2iAux_lt cs s.reverse (fun c hc => h c (List.mem_reverse.mp hc))
  simpa [text_to_index] using this

theorem i2tAux_t2iAux (cs : List Char) (l : List Char)
    (h : ∀ c ∈ l, c ∈ cs) :
    i2tAux cs (t2iAux cs l 0) l.length = l := by
  induction l with
  | nil => simp [i2tAux]
  | cons c rest ih =>
      have hmem : c ∈ cs := h c (List.mem_cons_self c rest)
      have hc : cs.indexOf c < cs.length := List.indexOf_lt_length.mpr hmem
      have hB : 0 < cs.length := Nat.lt_of_le_of_lt (Nat.zero_le _) hc
      rw [t2iAux_cons, List.length_cons]
      have hmod : (cs.indexOf c + cs.length * t2iAux cs rest 0) % cs.length =
          cs.indexOf c := by
        rw [Nat.add_mul_mod_self_left, Nat.mod_eq_of_lt hc]
      have hdiv : (cs.indexOf c + cs.length * t2iAux cs rest 0) / cs.length =
          t2iAux cs rest 0 := by
        rw [Nat.add_mul_div_left _ _ hB, Nat.div_eq_of_lt hc, Nat.zero_add]
      rw [i2tAux, hmod, hdiv, ih (fun x hx => h x (List.mem_cons_of_mem c hx))]
      congr 1
      rw [List.getD_eq_getElem _ _ hc]
      exact List.getElem_indexOf hc

theorem t2iAux_i2tAux (cs : List Char) (hnd : cs.Nodup) (L : ℕ) :
    ∀ i : ℕ, i < cs.length ^ L → t2iAux cs (i2tAux cs i L) 0 = i := by
  induction L with
  | zero =>
      intro i hi
      simp only [pow_zero, Nat.lt_one_iff] at hi
      simp [i2tAux, t2iAux, hi]
  | succ L ih =>
      intro i hi
      have hB : 0 < cs.length := by
        rcases Nat.eq_zero_or_pos cs.length with h0 | h0
        · rw [h0] at hi
          simp [Nat.zero_pow] at hi
        · exact h0
      have hdivlt : i / cs.length < cs.length ^ L := by
        rw [Nat.div_lt_iff_lt_mul hB]
        calc i < cs.length ^ (L + 1) := hi
          _ = cs.length ^ L * cs.length := pow_succ _ _
      have hmodlt : i % cs.length < cs.length := Nat.mod_lt _ hB
      rw [i2tAux, t2iAux_cons, ih (i / cs.length) hdivlt]
      have hidx : cs.indexOf (cs.getD (i % cs.length) 'a') = i % cs.length := by
        rw [List.getD_eq_getElem _ _ hmodlt]
        exact List.indexOf_getElem hnd _ hmodlt
      rw [hidx, Nat.mod_add_div]

theorem i2tAux_mod (cs : List Char) (L : ℕ) :
    ∀ i : ℕ, i2tAux cs (i % cs.length ^ L) L = i2tAux cs i L := by
  induction L with
  | zero => intro i; simp [i2tAux]
  | succ L ih =>
      intro i
      rcases Nat.eq_zero_or_pos cs.length with h0 | hB
      · rw [h0]
        simp [Nat.zero_pow]
      · have hdvd : cs.length ∣ cs.length ^ (L + 1) :=
          dvd_pow_self cs.length (Nat.succ_ne_zero L)
        have hmod : i % cs.length ^ (L + 1) % cs.length = i % cs.length :=
          Nat.mod_mod_of_dvd i hdvd
        have hdiv : i % cs.length ^ (L + 1) / cs.length =
            i / cs.length % cs.length ^ L := by
          rw [pow_succ']
          exact Nat.mod_mul_right_div_self i cs.length (cs.length ^ L)
        rw [i2tAux, hmod, hdiv, ih, i2tAux]

theorem index_to_text_mod_eq (cs : List Char) (i L : ℕ) :
    index_to_text cs (i % cs.length ^ L) L = index_to_text cs i L := by
  unfold index_to_text
  rw [i2tAux_mod]

/-! ### Claim C3 -/

/-- Counterexample to claim C3: over the 4-symbol alphabet `a b c d` with
`L = 2` (valid indices `0..15`), `index_to_text 16 2` does not fail — it
silently truncates the out-of-range index `16` and returns the same candidate
`"aa"` as index `0`. -/
theorem decode_sixteen_returns_aa :
    index_to_text ['a', 'b', 'c', 'd'] 16 2 = ['a', 'a'] ∧
    index_to_text ['a', 'b', 'c', 'd'] 16 2 = index_to_text ['a', 'b', 'c', 'd'] 0 2 := by
  constructor <;> rfl

/-- Claim C3, amended: `index_to_text` is total and never fails; for every
index and length it returns the decoding of `index mod B^L`, i.e. an index
`≥ B^L` is silently truncated to an in-range one rather than rejected. -/
theorem index_to_text_total_truncates (cs : List Char) (i L : ℕ)
    (h : cs.length ^ L ≤ i) :
    index_to_text cs i L = index_to_text cs (i % cs.length ^ L) L := by
  rw [index_to_text_mod_eq]

/-- Witness for `index_to_text_total_truncates` at the claim's own instance:
the 4-symbol alphabet, index 16, length 2. -/
theorem index_to_text_total_truncates_witness :
    ['a', 'b', 'c', 'd'].length ^ 2 ≤ 16 ∧
    index_to_text ['a', 'b', 'c', 'd'] 16 2 =
      index_to_text ['a', 'b', 'c', 'd'] (16 % ['a', 'b', 'c', 'd'].length ^ 2) 2 :=
  ⟨by decide, index_to_text_total_truncates ['a', 'b', 'c', 'd'] 16 2 (by decide)⟩

/-! ### Claim C4 -/

/-- Claim C4: the codec round-trips over the program's character set. For
every string `s` whose characters all lie in `charset`,
`index_to_text (text_to_index s) (len s) = s`; and for every `i < B ^ L`,
`text_to_index (index_to_text i L) = i`. -/
theorem codec_roundtrip :
    (∀ s : List Char, (∀ c ∈ s, c ∈ charset) →
      index_to_text charset (text_to_index charset s) s.length = s) ∧
    (∀ i L : ℕ, i < charset.length ^ L →
      text_to_index charset (index_to_text charset i L) = i) := by
  constructor
  · intro s hs
    unfold index_to_text text_to_index
    have h : i2tAux charset (t2iAux charset s.reverse 0) s.reverse.length =
        s.reverse :=
      i2tAux_t2iAux charset s.reverse (fun c hc => hs c (List.mem_reverse.mp hc))
    rw [List.length_reverse] at h
    rw [h, List.reverse_reverse]
  · intro i L hi
    have hnd : charset.Nodup := by decide
    unfold text_to_index index_to_text
    rw [List.reverse_reverse]
    exact t2iAux_i2tAux charset hnd L i hi

/-- Witness for `codec_roundtrip`: the round trip evaluated at the concrete
string `"ab"` and the concrete index 63 with length 2. -/
theorem codec_roundtrip_witness :
    (∀ c ∈ ['a', 'b'], c ∈ charset) ∧ 63 < charset.length ^ 2 ∧
    index_to_text charset (text_to_index charset ['a', 'b']) ['a', 'b'].length =
      ['a', 'b'] ∧
    text_to_index charset (index_to_text charset 63 2) = 63 :=
  ⟨by decide, by decide,
    codec_roundtrip.1 ['a', 'b'] (by decide),
    codec_roundtrip.2 63 2 (by decide)⟩

/-! ### Claims C5 and C6 -/

theorem n_qubits_eq_clog (N : ℕ) : n_qubits N = Nat.clog 2 N := by
  unfold n_qubits
  have h2 : (2 : ℝ) = ((2 : ℕ) : ℝ) := by norm_num
  rw [h2, Real.ceil_logb_natCast (by positivity), Int.clog_natCast,
    Int.toNat_natCast]

/-- Claim C5: the qubit count `ceil(log2 N)` is non-decreasing in the space
size, and the register it sizes can address the whole space:
`N ≤ 2 ^ n_qubits N`. -/
theorem n_qubits_monotone_and_covers (M N : ℕ) (hM : 1 < M) (hMN : M ≤ N) :
    n_qubits M ≤ n_qubits N ∧ N ≤ 2 ^ n_qubits N := by
  rw [n_qubits_eq_clog, n_qubits_eq_clog]
  exact ⟨Nat.clog_mono_right 2 hMN, Nat.le_pow_clog (by norm_num) N⟩

/-- Witness for `n_qubits_monotone_and_covers` at `M = 2, N = 5`. -/
theorem n_qubits_monotone_and_covers_witness :
    1 < 2 ∧ 2 ≤ 5 ∧ (n_qubits 2 ≤ n_qubits 5 ∧ 5 ≤ 2 ^ n_qubits 5) :=
  ⟨by decide, by decide, n_qubits_monotone_and_covers 2 5 (by decide) (by decide)⟩

/-- Claim C6: for every space size `N ≥ 2` the computed Grover iteration count
equals `max 1 ⌊π/4 · √N⌋` (the `int()` truncation coincides with the floor on
the nonnegative value `π/4 · √N`) and is therefore at least 1. -/
theorem optimal_iterations_spec (N : ℕ) (h : 2 ≤ N) :
    optimal_iterations N = max 1 (Nat.floor (Real.pi / 4 * Real.sqrt N)) ∧
    1 ≤ optimal_iterations N := by
  constructor
  · unfold optimal_iterations
    rw [Int.floor_toNat]
  · exact le_max_left 1 _

/-- Witness for `optimal_iterations_spec` at `N = 4`. -/
theorem optimal_iterations_spec_witness :
    2 ≤ 4 ∧
    (optimal_iterations 4 = max 1 (Nat.floor (Real.pi / 4 * Real.sqrt 4)) ∧
      1 ≤ optimal_iterations 4) :=
  ⟨by decide, optimal_iterations_spec 4 (by decide)⟩

/-! ### Gate sequences of `_oracle` and `_diffusion` -/

/-- The gate vocabulary used by `_oracle` and `_diffusion`: `qc.h(q)`,
`qc.x(q)` and `qc.mcx(controls, target)`. -/
inductive Gate where
  | h : ℕ → Gate
  | x : ℕ → Gate
  | mcx : List ℕ → ℕ → Gate
deriving DecidableEq

/-- Character `i` of `format(target_index, f'0{n}b')` as a bit: with
`target < 2^n` that string is the big-endian `n`-bit representation, so its
character `i` is bit `n - 1 - i` of `target`. -/
def targetBit (n target i : ℕ) : Bool := Nat.testBit target (n - 1 - i)

/-- Steps 1 and 4 of `_oracle`: an `x` gate, in increasing qubit order, on
every qubit whose character in the target bit string is `'0'`. -/
def xGatesFor (n target : ℕ) : List Gate :=
  ((List.range n).filter (fun i => !targetBit n target i)).map Gate.x

/-- The multi-controlled-Z block shared by `_oracle` and `_diffusion`:
`qc.h(n-1)`, then `qc.mcx(list(range(n-1)), n-1)` only when `n_qubits > 1`,
then `qc.h(n-1)`. -/
def mczTrick (n : ℕ) : List Gate :=
  [Gate.h (n - 1)] ++
    (if 1 < n then [Gate.mcx (List.range (n - 1)) (n - 1)] else []) ++
    [Gate.h (n - 1)]

/-- Gate sequence emitted by `QuantumHashCracker._oracle`. -/
def oracleGates (n target : ℕ) : List Gate :=
  xGatesFor n target ++ mczTrick n ++ xGatesFor n target

/-- Gate sequence emitted by `QuantumHashCracker._diffusion`: `h q; x q` for
every qubit, the multi-controlled-Z block, then `x q; h q` for every qubit. -/
def diffusionGates (n : ℕ) : List Gate :=
  ((List.range n).flatMap fun q => [Gate.h q, Gate.x q]) ++ mczTrick n ++
    ((List.range n).flatMap fun q => [Gate.x q, Gate.h q])

/-- An `n`-qubit state vector: one complex amplitude per assignment of the
qubits. Following the spec's convention, qubit `i` carries character `i` of
the big-endian bit string of a basis-state number. -/
def QState (n : ℕ) : Type := (Fin n → Bool) → ℂ

/-- Exact state-vector action of a single gate. `h` is the Hadamard gate with
amplitude `1/√2`, `x` permutes the two amplitudes of one qubit, and `mcx`
flips the target qubit on assignments whose control qubits are all 1. A gate
addressing a qubit outside the register acts as the identity (the builders
never emit such a gate). -/
noncomputable def applyGate (n : ℕ) (g : Gate) (ψ : QState n) : QState n :=
  match g with
  | Gate.x q =>
      if h : q < n then
        fun b => ψ (Function.update b ⟨q, h⟩ (!b ⟨q, h⟩))
      else ψ
  | Gate.h q =>
      if h : q < n then
        fun b =>
          ((Real.sqrt 2 : ℝ) : ℂ)⁻¹ *
            (ψ (Function.update b ⟨q, h⟩ false) +
              (if b ⟨q, h⟩ then -1 else 1) * ψ (Function.update b ⟨q, h⟩ true))
      else ψ
  | Gate.mcx cs t =>
      if h : t < n then
        fun b =>
          if cs.all (fun c => if hc : c < n then b ⟨c, hc⟩ else false) then
            ψ (Function.update b ⟨t, h⟩ (!b ⟨t, h⟩))
          else ψ b
      else ψ

/-- Apply a gate list in circuit order (leftmost gate first). -/
noncomputable def applyGates (n : ℕ) (gs : List Gate) (ψ : QState n) : QState n :=
  gs.foldl (fun φ g => applyGate n g φ) ψ

/-- The qubit assignment of the basis state numbered `target`: qubit `i`
holds character `i` of the big-endian `n`-bit string of `target`. -/
def tAssign (n target : ℕ) : Fin n → Bool := fun i => targetBit n target i.val

theorem applyGates_append (n : ℕ) (l₁ l₂ : List Gate) (ψ : QState n) :
    applyGates n (l₁ ++ l₂) ψ = applyGates n l₂ (applyGates n l₁ ψ) := by
  unfold applyGates
  rw [List.foldl_append]

theorem sqrt2C_mul_self : ((Real.sqrt 2 : ℝ) : ℂ) * ((Real.sqrt 2 : ℝ) : ℂ) = 2 := by
  norm_cast
  rw [Real.mul_self_sqrt]
  norm_num

theorem inv_sqrt2C_sq :
    ((Real.sqrt 2 : ℝ) : ℂ)⁻¹ * ((Real.sqrt 2 : ℝ) : ℂ)⁻¹ = 2⁻¹ := by
  rw [← mul_inv, sqrt2C_mul_self]

theorem applyGate_h_h (n q : ℕ) (hq : q < n) (ψ : QState n) :
    applyGate n (Gate.h q) (applyGate n (Gate.h q) ψ) = ψ := by
  funext b
  simp only [applyGate, dif_pos hq, Function.update_idem, Function.update_same]
  cases hb : b ⟨q, hq⟩ with
  | false =>
      have hub : Function.update b ⟨q, hq⟩ false = b := by
        rw [← hb]
        exact Function.update_eq_self _ _
      norm_num
      conv_rhs => rw [← hub]
      linear_combination (2 * ψ (Function.update b ⟨q, hq⟩ false)) * inv_sqrt2C_sq
  | true =>
      have hub : Function.update b ⟨q, hq⟩ true = b := by
        rw [← hb]
        exact Function.update_eq_self _ _
      norm_num
      conv_rhs => rw [← hub]
      linear_combination (2 * ψ (Function.update b ⟨q, hq⟩ true)) * inv_sqrt2C_sq

theorem applyGates_cons (n : ℕ) (g : Gate) (gs : List Gate) (ψ : QState n) :
    applyGates n (g :: gs) ψ = applyGates n gs (applyGate n g ψ) := rfl

theorem applyGate_h_eval (n q : ℕ) (hq : q < n) (φ : QState n) (b : Fin n → Bool) :
    applyGate n (Gate.h q) φ b =
      ((Real.sqrt 2 : ℝ) : ℂ)⁻¹ *
        (φ (Function.update b ⟨q, hq⟩ false) +
          (if b ⟨q, hq⟩ then -1 else 1) * φ (Function.update b ⟨q, hq⟩ true)) := by
  simp only [applyGate, dif_pos hq]

theorem applyGate_mcx_eval (n : ℕ) (C : List ℕ) (t : ℕ) (ht : t < n)
    (φ : QState n) (b : Fin n → Bool) :
    applyGate n (Gate.mcx C t) φ b =
      if C.all (fun c => if hc : c < n then b ⟨c, hc⟩ else false) then
        φ (Function.update b ⟨t, ht⟩ (!b ⟨t, ht⟩))
      else φ b := by
  simp only [applyGate, dif_pos ht]

theorem all_congr_local {α : Type} {pf pg : α → Bool} :
    ∀ xs : List α, (∀ u ∈ xs, pf u = pg u) → xs.all pf = xs.all pg := by
  intro xs
  induction xs with
  | nil =>
      intro _
      rfl
  | cons u us ih =>
      intro hpq
      have hhead : pf u = pg u := hpq u (List.mem_cons_self u us)
      have htail := ih fun v hv => hpq v (List.mem_cons_of_mem u hv)
      simp only [List.all_cons, hhead, htail]

/-- Simultaneous bit flip on the qubits listed in `L`. -/
def flipSet (n : ℕ) (L : List ℕ) (b : Fin n → Bool) : Fin n → Bool :=
  fun i => if i.val ∈ L then !b i else b i

theorem applyGates_xList (n : ℕ) (L : List ℕ) (hnd : L.Nodup)
    (hbound : ∀ q ∈ L, q < n) (ψ : QState n) (b : Fin n → Bool) :
    applyGates n (L.map Gate.x) ψ b = ψ (flipSet n L b) := by
  induction L generalizing ψ b with
  | nil =>
      have hfb : flipSet n [] b = b := by
        funext i
        simp [flipSet]
      rw [hfb]
      rfl
  | cons q L' ih =>
      have hq : q < n := hbound q (List.mem_cons_self q L')
      have hnotmem : q ∉ L' := (List.nodup_cons.mp hnd).1
      have hnd' : L'.Nodup := (List.nodup_cons.mp hnd).2
      have hbound' : ∀ r ∈ L', r < n := fun r hr =>
        hbound r (List.mem_cons_of_mem q hr)
      rw [List.map_cons, applyGates_cons, ih hnd' hbound' _ b]
      simp only [applyGate, dif_pos hq]
      congr 1
      funext i
      by_cases hiq : i = ⟨q, hq⟩
      · subst hiq
        rw [Function.update_same]
        have h2 : flipSet n L' b ⟨q, hq⟩ = b ⟨q, hq⟩ := by
          simp [flipSet, hnotmem]
        rw [h2]
        simp [flipSet]
      · rw [Function.update_noteq hiq]
        have hvq : i.val ≠ q := fun hv => hiq (Fin.ext hv)
        simp [flipSet, hvq]

/-- The permutation of qubit assignments effected by the X-gate blocks of
`_oracle`: flip exactly the qubits whose target bit is 0. -/
def oracleFlip (n target : ℕ) (b : Fin n → Bool) : Fin n → Bool :=
  fun i => if targetBit n target i.val then b i else !b i

theorem flipSet_xGatesFor (n target : ℕ) (b : Fin n → Bool) :
    flipSet n ((List.range n).filter (fun i => !targetBit n target i)) b =
      oracleFlip n target b := by
  funext i
  simp only [flipSet, oracleFlip, List.mem_filter, List.mem_range]
  cases ht : targetBit n target i.val with
  | true => simp [ht]
  | false => simp [ht, i.isLt]

theorem applyGates_xGatesFor (n target : ℕ) (ψ : QState n) (b : Fin n → Bool) :
    applyGates n (xGatesFor n target) ψ b = ψ (oracleFlip n target b) := by
  unfold xGatesFor
  rw [applyGates_xList n _ (List.Nodup.filter _ (List.nodup_range n))
      (fun q hq => List.mem_range.mp (List.mem_filter.mp hq).1) ψ b,
    flipSet_xGatesFor]

theorem oracleFlip_involutive (n target : ℕ) (b : Fin n → Bool) :
    oracleFlip n target (oracleFlip n target b) = b := by
  funext i
  by_cases ht : targetBit n target i.val = true <;> simp [oracleFlip, ht]

theorem oracleFlip_allTrue_iff (n target : ℕ) (b : Fin n → Bool) :
    (∀ i : Fin n, oracleFlip n target b i = true) ↔ b = tAssign n target := by
  constructor
  · intro hall
    funext i
    have hi := hall i
    cases ht : targetBit n target i.val with
    | true =>
        simp only [oracleFlip, ht, if_true] at hi
        simp [tAssign, ht, hi]
    | false =>
        simp only [oracleFlip, ht] at hi
        simp only [Bool.false_eq_true, if_false, Bool.not_eq_true'] at hi
        simp [tAssign, ht, hi]
  · intro hb
    subst hb
    intro i
    cases ht : targetBit n target i.val with
    | true => simp [oracleFlip, tAssign, ht]
    | false => simp [oracleFlip, tAssign, ht]

theorem controls_update_highest (n : ℕ) (htn : n - 1 < n) (b : Fin n → Bool)
    (v : Bool) :
    (List.range (n - 1)).all
        (fun c => if hc : c < n then Function.update b ⟨n - 1, htn⟩ v ⟨c, hc⟩ else false) =
      (List.range (n - 1)).all (fun c => if hc : c < n then b ⟨c, hc⟩ else false) := by
  apply all_congr_local
  intro c hc
  have hcn : c < n - 1 := List.mem_range.mp hc
  have hcn' : c < n := by omega
  rw [dif_pos hcn', dif_pos hcn']
  have hne : (⟨c, hcn'⟩ : Fin n) ≠ ⟨n - 1, htn⟩ := by
    intro heq
    have hval : c = n - 1 := congrArg Fin.val heq
    omega
  exact Function.update_noteq hne v b

theorem forall_qubits_split (n : ℕ) (htn : n - 1 < n) (b : Fin n → Bool) :
    (∀ i : Fin n, b i = true) ↔
      ((List.range (n - 1)).all (fun c => if hc : c < n then b ⟨c, hc⟩ else false) = true ∧
        b ⟨n - 1, htn⟩ = true) := by
  rw [List.all_eq_true]
  constructor
  · intro h
    refine ⟨?_, h _⟩
    intro c hc
    have hcn : c < n - 1 := List.mem_range.mp hc
    rw [dif_pos (by omega : c < n)]
    exact h _
  · rintro ⟨hall, ht⟩ i
    by_cases hi : i.val < n - 1
    · have hmem := hall i.val (List.mem_range.mpr hi)
      rw [dif_pos i.isLt] at hmem
      simpa using hmem
    · have hieq : i = ⟨n - 1, htn⟩ := by
        apply Fin.ext
        have := i.isLt
        simp only []
        omega
      rw [hieq]
      exact ht

theorem mczTrick_sem (n : ℕ) (hn : 2 ≤ n) (ψ : QState n) (b : Fin n → Bool) :
    applyGates n (mczTrick n) ψ b =
      if ∀ i : Fin n, b i = true then -ψ b else ψ b := by
  have h1n : 1 < n := hn
  have htn : n - 1 < n := by omega
  have hlist : mczTrick n =
      [Gate.h (n - 1), Gate.mcx (List.range (n - 1)) (n - 1), Gate.h (n - 1)] := by
    simp [mczTrick, h1n]
  rw [hlist]
  have hfold : applyGates n
      [Gate.h (n - 1), Gate.mcx (List.range (n - 1)) (n - 1), Gate.h (n - 1)] ψ =
      applyGate n (Gate.h (n - 1))
        (applyGate n (Gate.mcx (List.range (n - 1)) (n - 1))
          (applyGate n (Gate.h (n - 1)) ψ)) := rfl
  rw [hfold]
  rw [applyGate_h_eval n (n - 1) htn _ b]
  rw [applyGate_mcx_eval n _ (n - 1) htn _ (Function.update b ⟨n - 1, htn⟩ false)]
  rw [applyGate_mcx_eval n _ (n - 1) htn _ (Function.update b ⟨n - 1, htn⟩ true)]
  rw [controls_update_highest n htn b false, controls_update_highest n htn b true]
  simp only [Function.update_same, Function.update_idem, Bool.not_false, Bool.not_true]
  rw [applyGate_h_eval n (n - 1) htn ψ (Function.update b ⟨n - 1, htn⟩ false)]
  rw [applyGate_h_eval n (n - 1) htn ψ (Function.update b ⟨n - 1, htn⟩ true)]
  simp only [Function.update_same, Function.update_idem]
  simp only [forall_qubits_split n htn b]
  by_cases hA : (List.range (n - 1)).all
      (fun c => if hc : c < n then b ⟨c, hc⟩ else false) = true
  · rw [if_pos hA, if_pos hA]
    cases hbt : b ⟨n - 1, htn⟩ with
    | true =>
        have hub : Function.update b ⟨n - 1, htn⟩ true = b := by
          rw [← hbt]
          exact Function.update_eq_self _ _
        rw [if_pos (show ((List.range (n - 1)).all fun c =>
            if hc : c < n then b ⟨c, hc⟩ else false) = true ∧ true = true
          from ⟨hA, rfl⟩)]
        conv_rhs => rw [← hub]
        norm_num
        linear_combination
          (-2 * ψ (Function.update b ⟨n - 1, htn⟩ true)) * inv_sqrt2C_sq
    | false =>
        have hub : Function.update b ⟨n - 1, htn⟩ false = b := by
          rw [← hbt]
          exact Function.update_eq_self _ _
        norm_num
        conv_rhs => rw [← hub]
        linear_combination
          (2 * ψ (Function.update b ⟨n - 1, htn⟩ false)) * inv_sqrt2C_sq
  · rw [if_neg hA, if_neg hA]
    cases hbt : b ⟨n - 1, htn⟩ with
    | true =>
        have hub : Function.update b ⟨n - 1, htn⟩ true = b := by
          rw [← hbt]
          exact Function.update_eq_self _ _
        rw [if_neg (show ¬(((List.range (n - 1)).all fun c =>
            if hc : c < n then b ⟨c, hc⟩ else false) = true ∧ true = true)
          from fun hcc => hA hcc.1)]
        conv_rhs => rw [← hub]
        norm_num
        linear_combination
          (2 * ψ (Function.update b ⟨n - 1, htn⟩ true)) * inv_sqrt2C_sq
    | false =>
        have hub : Function.update b ⟨n - 1, htn⟩ false = b := by
          rw [← hbt]
          exact Function.update_eq_self _ _
        norm_num
        conv_rhs => rw [← hub]
        linear_combination
          (2 * ψ (Function.update b ⟨n - 1, htn⟩ false)) * inv_sqrt2C_sq

theorem applyGates_xGatesFor_pt (n target : ℕ) (ψ : QState n) :
    applyGates n (xGatesFor n target) ψ = fun b => ψ (oracleFlip n target b) := by
  funext b
  exact applyGates_xGatesFor n target ψ b

/-! ### Claims C1 and C2 -/

theorem oracleGates_one (target : ℕ) (ψ : QState 1) (b : Fin 1 → Bool) :
    applyGates 1 (oracleGates 1 target) ψ b = ψ b := by
  unfold oracleGates
  rw [applyGates_append, applyGates_append]
  have hmcz : ∀ φ : QState 1, applyGates 1 (mczTrick 1) φ = φ := by
    intro φ
    have hl : mczTrick 1 = [Gate.h 0, Gate.h 0] := by
      simp [mczTrick]
    rw [hl]
    have htwo : applyGates 1 [Gate.h 0, Gate.h 0] φ =
        applyGate 1 (Gate.h 0) (applyGate 1 (Gate.h 0) φ) := rfl
    rw [htwo, applyGate_h_h 1 0 (by norm_num) φ]
  rw [hmcz, applyGates_xGatesFor, applyGates_xGatesFor, oracleFlip_involutive]

/-- Claim C1, amended to registers of width `n ≥ 2`: the oracle's gate
sequence, applied to an arbitrary state vector, multiplies the amplitude of
exactly the basis state numbered `target` (qubit `i` holding character `i` of
the big-endian bit string of `target`) by `-1` and leaves every other
amplitude unchanged. For `n = 1` the emitted sequence is the identity (see
the counterexample and claim C2). -/
theorem oracle_marks_target (n target : ℕ) (hn : 2 ≤ n) (ht : target < 2 ^ n)
    (ψ : QState n) (b : Fin n → Bool) :
    applyGates n (oracleGates n target) ψ b =
      if b = tAssign n target then -ψ b else ψ b := by
  unfold oracleGates
  rw [applyGates_append, applyGates_append]
  rw [applyGates_xGatesFor, mczTrick_sem n hn, applyGates_xGatesFor_pt]
  simp only [oracleFlip_involutive, oracleFlip_allTrue_iff]

/-- Witness for `oracle_marks_target`: on a 2-qubit register with target
index 1 and the constant state, the amplitude at the target assignment is
negated. -/
theorem oracle_marks_target_witness :
    2 ≤ 2 ∧ 1 < 2 ^ 2 ∧
    applyGates 2 (oracleGates 2 1) (fun _ => 1) (tAssign 2 1) = -1 := by
  refine ⟨by norm_num, by norm_num, ?_⟩
  have h := oracle_marks_target 2 1 (by norm_num) (by norm_num)
      (fun _ => 1) (tAssign 2 1)
  simpa using h

/-- Counterexample to claim C1 as stated (which quantifies over every
`n ≥ 1`): on the 1-qubit register with target index 1 and the constant state
with amplitude 1 everywhere, the oracle leaves the target amplitude at `1`
instead of multiplying it by `-1`. -/
theorem oracle_claim_false_for_one_qubit :
    applyGates 1 (oracleGates 1 1) (fun _ => 1) (tAssign 1 1) ≠
      -((fun _ => (1 : ℂ)) (tAssign 1 1)) := by
  rw [oracleGates_one 1 (fun _ => 1) (tAssign 1 1)]
  norm_num

/-- Claim C2: the code's `n == 1` fallback emits `X? H H X?`, whose net
effect is the identity on every amplitude — not the claimed Pauli-Z phase
flip of the target basis state. This theorem evaluates the emitted circuit
for both possible 1-qubit targets. -/
theorem oracle_one_qubit_is_identity (ψ : QState 1) (b : Fin 1 → Bool) :
    applyGates 1 (oracleGates 1 0) ψ b = ψ b ∧
    applyGates 1 (oracleGates 1 1) ψ b = ψ b :=
  ⟨oracleGates_one 0 ψ b, oracleGates_one 1 ψ b⟩

/-! ### Claim C7 -/

theorem xGatesFor_zero (n : ℕ) : xGatesFor n 0 = (List.range n).map Gate.x := by
  unfold xGatesFor
  congr 1
  apply List.filter_eq_self.mpr
  intro a _
  simp [targetBit, Nat.zero_testBit]

theorem applyGate_hx_comm (n i j : ℕ) (hij : i ≠ j) (ψ : QState n) :
    applyGate n (Gate.h i) (applyGate n (Gate.x j) ψ) =
      applyGate n (Gate.x j) (applyGate n (Gate.h i) ψ) := by
  by_cases hi : i < n
  · by_cases hj : j < n
    · funext b
      have hji : (⟨j, hj⟩ : Fin n) ≠ ⟨i, hi⟩ := by
        intro heq
        exact hij ((congrArg Fin.val heq).symm)
      have hij' : (⟨i, hi⟩ : Fin n) ≠ ⟨j, hj⟩ := by
        intro heq
        exact hij (congrArg Fin.val heq)
      simp only [applyGate, dif_pos hi, dif_pos hj,
        Function.update_noteq hji, Function.update_noteq hij',
        Function.update_comm hij']
    · have hxid : ∀ φ : QState n, applyGate n (Gate.x j) φ = φ := by
        intro φ
        simp only [applyGate, dif_neg hj]
      rw [hxid, hxid]
  · have hhid : ∀ φ : QState n, applyGate n (Gate.h i) φ = φ := by
      intro φ
      simp only [applyGate, dif_neg hi]
    rw [hhid, hhid]

theorem applyGate_h_xList_comm (n i : ℕ) (L : List ℕ) :
    ∀ (hL : ∀ q ∈ L, q ≠ i) (ψ : QState n),
    applyGate n (Gate.h i) (applyGates n (L.map Gate.x) ψ) =
      applyGates n (L.map Gate.x) (applyGate n (Gate.h i) ψ) := by
  induction L with
  | nil =>
      intro _ ψ
      rfl
  | cons q L' ih =>
      intro hL ψ
      rw [List.map_cons, applyGates_cons, applyGates_cons,
        ih (fun r hr => hL r (List.mem_cons_of_mem q hr)) (applyGate n (Gate.x q) ψ),
        applyGate_hx_comm n i q (Ne.symm (hL q (List.mem_cons_self q L'))) ψ]

theorem applyGate_x_hList_comm (n j : ℕ) (L : List ℕ) :
    ∀ (hL : ∀ q ∈ L, q ≠ j) (ψ : QState n),
    applyGate n (Gate.x j) (applyGates n (L.map Gate.h) ψ) =
      applyGates n (L.map Gate.h) (applyGate n (Gate.x j) ψ) := by
  induction L with
  | nil =>
      intro _ ψ
      rfl
  | cons q L' ih =>
      intro hL ψ
      rw [List.map_cons, applyGates_cons, applyGates_cons,
        ih (fun r hr => hL r (List.mem_cons_of_mem q hr)) (applyGate n (Gate.h q) ψ),
        ← applyGate_hx_comm n q j (hL q (List.mem_cons_self q L')) ψ]

theorem diffusion_prefix_reorder (N m : ℕ) :
    ∀ ψ : QState N,
    applyGates N ((List.range m).flatMap fun q => [Gate.h q, Gate.x q]) ψ =
      applyGates N ((List.range m).map Gate.x)
        (applyGates N ((List.range m).map Gate.h) ψ) := by
  induction m with
  | zero =>
      intro ψ
      rfl
  | succ m ih =>
      intro ψ
      rw [List.range_succ]
      simp only [List.flatMap_append, List.map_append, List.flatMap_cons,
        List.flatMap_nil, List.append_nil, List.map_cons, List.map_nil]
      rw [applyGates_append, applyGates_append, applyGates_append, ih ψ]
      have h2 : ∀ φ : QState N, applyGates N [Gate.h m, Gate.x m] φ =
          applyGate N (Gate.x m) (applyGate N (Gate.h m) φ) := fun φ => rfl
      have h1h : ∀ φ : QState N, applyGates N [Gate.h m] φ =
          applyGate N (Gate.h m) φ := fun φ => rfl
      have h1x : ∀ φ : QState N, applyGates N [Gate.x m] φ =
          applyGate N (Gate.x m) φ := fun φ => rfl
      rw [h2, h1h, h1x]
      rw [applyGate_h_xList_comm N m (List.range m)
        (fun q hq => Nat.ne_of_lt (List.mem_range.mp hq))
        (applyGates N ((List.range m).map Gate.h) ψ)]

theorem diffusion_suffix_reorder (N m : ℕ) :
    ∀ ψ : QState N,
    applyGates N ((List.range m).flatMap fun q => [Gate.x q, Gate.h q]) ψ =
      applyGates N ((List.range m).map Gate.h)
        (applyGates N ((List.range m).map Gate.x) ψ) := by
  induction m with
  | zero =>
      intro ψ
      rfl
  | succ m ih =>
      intro ψ
      rw [List.range_succ]
      simp only [List.flatMap_append, List.map_append, List.flatMap_cons,
        List.flatMap_nil, List.append_nil, List.map_cons, List.map_nil]
      rw [applyGates_append, applyGates_append, applyGates_append, ih ψ]
      have h2 : ∀ φ : QState N, applyGates N [Gate.x m, Gate.h m] φ =
          applyGate N (Gate.h m) (applyGate N (Gate.x m) φ) := fun φ => rfl
      have h1h : ∀ φ : QState N, applyGates N [Gate.h m] φ =
          applyGate N (Gate.h m) φ := fun φ => rfl
      have h1x : ∀ φ : QState N, applyGates N [Gate.x m] φ =
          applyGate N (Gate.x m) φ := fun φ => rfl
      rw [h2, h1h, h1x]
      rw [applyGate_x_hList_comm N m (List.range m)
        (fun q hq => Nat.ne_of_lt (List.mem_range.mp hq))
        (applyGates N ((List.range m).map Gate.x) ψ)]

/-- Counterexample to claim C7 read as equality of emitted gate sequences: on
2 qubits the diffusion builder interleaves `h q; x q` per qubit, so its gate
list is not literally `H on every qubit, then the oracle's list for target 0,
then H on every qubit` (the second gate is `x 0` on one side and `h 1` on the
other). -/
theorem diffusion_gate_list_differs :
    diffusionGates 2 ≠
      (List.range 2).map Gate.h ++ oracleGates 2 0 ++ (List.range 2).map Gate.h := by
  decide

/-- Claim C7, amended to equality of the denoted operators: for every `n`,
the diffusion circuit acts on every state exactly as Hadamard on every qubit,
then the oracle's gate sequence for target index 0, then Hadamard on every
qubit; the two gate lists differ only by reordering single-qubit gates that
act on distinct qubits. -/
theorem diffusion_eq_h_oracle0_h (n : ℕ) (ψ : QState n) :
    applyGates n (diffusionGates n) ψ =
      applyGates n ((List.range n).map Gate.h ++ oracleGates n 0 ++
        (List.range n).map Gate.h) ψ := by
  unfold diffusionGates oracleGates
  rw [xGatesFor_zero]
  simp only [applyGates_append]
  rw [diffusion_prefix_reorder n n ψ]
  rw [diffusion_suffix_reorder n n]

/-! ### Claim C8: result interpretation -/

/-- Python's `max(counts.items(), key=lambda x: x[1])` over a dict in
insertion order: scan left to right, keeping the entry whose count is
strictly larger than the current best (ties keep the earlier entry).
`none` on an empty dict. -/
def pyMax (l : List (List Bool × ℕ)) : Option (List Bool × ℕ) :=
  match l with
  | [] => none
  | x :: xs => some (xs.foldl (fun best y => if best.2 < y.2 then y else best) x)

/-- `int(bitstring, 2)`: big-endian binary interpretation of a bitstring. -/
def bitsToNat (bs : List Bool) : ℕ :=
  bs.foldl (fun acc bit => 2 * acc + (if bit then 1 else 0)) 0

/-- Result-parsing block at the end of `quantum_search`: pick the measurement
outcome with the highest count, convert it to an index with `int(_, 2)`,
decode it with `index_to_text`, and set `success` to whether the measured
index equals the target index. Returns `none` for an empty `counts` dict
(the code's `else` branch reports no measured text). -/
def interpretCounts (cs : List Char) (targetIndex length : ℕ)
    (counts : List (List Bool × ℕ)) : Option (Bool × List Char) :=
  match pyMax counts with
  | none => none
  | some m =>
      some (decide (bitsToNat m.1 = targetIndex),
        index_to_text cs (bitsToNat m.1) length)

theorem pyFold_mem (xs : List (List Bool × ℕ)) :
    ∀ x, xs.foldl (fun best y => if best.2 < y.2 then y else best) x ∈ x :: xs := by
  induction xs with
  | nil =>
      intro x
      exact List.mem_cons_self x []
  | cons y ys ih =>
      intro x
      rw [List.foldl_cons]
      have h := ih (if x.2 < y.2 then y else x)
      rcases List.mem_cons.mp h with heq | hmem
      · rw [heq]
        by_cases hc : x.2 < y.2
        · rw [if_pos hc]
          exact List.mem_cons_of_mem x (List.mem_cons_self y ys)
        · rw [if_neg hc]
          exact List.mem_cons_self x (y :: ys)
      · exact List.mem_cons_of_mem x (List.mem_cons_of_mem y hmem)

theorem pyFold_le (xs : List (List Bool × ℕ)) :
    ∀ x, x.2 ≤ (xs.foldl (fun best y => if best.2 < y.2 then y else best) x).2 ∧
      ∀ y ∈ xs, y.2 ≤ (xs.foldl (fun best y => if best.2 < y.2 then y else best) x).2 := by
  induction xs with
  | nil =>
      intro x
      refine ⟨Nat.le_refl _, ?_⟩
      intro y hy
      exact absurd hy (List.not_mem_nil y)
  | cons y ys ih =>
      intro x
      rw [List.foldl_cons]
      obtain ⟨hself, hall⟩ := ih (if x.2 < y.2 then y else x)
      have hstepx : x.2 ≤ (if x.2 < y.2 then y else x).2 := by
        by_cases hc : x.2 < y.2
        · simp only [if_pos hc]
          omega
        · simp only [if_neg hc]
          exact Nat.le_refl _
      have hstepy : y.2 ≤ (if x.2 < y.2 then y else x).2 := by
        by_cases hc : x.2 < y.2
        · simp only [if_pos hc]
          exact Nat.le_refl _
        · simp only [if_neg hc]
          omega
      refine ⟨le_trans hstepx hself, ?_⟩
      intro z hz
      rcases List.mem_cons.mp hz with hzy | hz'
      · rw [hzy]
        exact le_trans hstepy hself
      · exact hall z hz'

/-- Claim C8: for a nonempty measurement distribution the interpreter selects
an entry with the maximum observation count, decodes its bitstring by binary
interpretation to an index and then to a candidate via `index_to_text`, and
reports a match exactly when that index equals the target index. -/
theorem interpret_spec (cs : List Char) (targetIndex L : ℕ)
    (counts : List (List Bool × ℕ)) (e : List Bool × ℕ)
    (he : pyMax counts = some e) :
    counts ≠ [] ∧ e ∈ counts ∧ (∀ y ∈ counts, y.2 ≤ e.2) ∧
    interpretCounts cs targetIndex L counts =
      some (decide (bitsToNat e.1 = targetIndex),
        index_to_text cs (bitsToNat e.1) L) ∧
    (decide (bitsToNat e.1 = targetIndex) = true ↔ bitsToNat e.1 = targetIndex) := by
  cases counts with
  | nil => simp [pyMax] at he
  | cons x xs =>
      have hfold : e = xs.foldl (fun best y => if best.2 < y.2 then y else best) x := by
        have hx := he
        simp only [pyMax] at hx
        exact (Option.some.inj hx).symm
      refine ⟨by simp, ?_, ?_, ?_, ?_⟩
      · rw [hfold]
        exact pyFold_mem xs x
      · intro y hy
        rw [hfold]
        rcases List.mem_cons.mp hy with hyx | hy'
        · rw [hyx]
          exact (pyFold_le xs x).1
        · exact (pyFold_le xs x).2 y hy'
      · simp only [interpretCounts, he]
      · exact ⟨of_decide_eq_true, decide_eq_true⟩

/-- Witness for `interpret_spec` on a concrete two-outcome distribution: the
bitstring `10` (index 2) with 700 observations beats `01` with 300, decodes
to `"c"` over the 4-symbol alphabet, and matches target index 2. -/
theorem interpret_spec_witness :
    pyMax [([false, true], 300), ([true, false], 700)] = some ([true, false], 700) ∧
    interpretCounts ['a', 'b', 'c', 'd'] 2 1
        [([false, true], 300), ([true, false], 700)] = some (true, ['c']) := by
  refine ⟨by decide, ?_⟩
  have h := (interpret_spec ['a', 'b', 'c', 'd'] 2 1
      [([false, true], 300), ([true, false], 700)] ([true, false], 700)
      (by decide)).2.2.2.1
  rw [h]
  decide

/-! ### Claim C9: backend save/restore -/

/-- Search outcome tuple `(success, measured_text, sim_time, counts)` of
`quantum_search`; wall-clock time is modelled as a natural number. -/
def SearchResult : Type :=
  Bool × Option (List Char) × ℕ × List (List Bool × ℕ)

/-- Backend selection: the local Aer simulator object or the name of an IBM
backend (`self.backend` starts as `None`, hence `Option Backend` below). -/
inductive Backend where
  | aer : Backend
  | ibm : String → Backend
deriving DecidableEq

/-- The mutable fields of `QuantumHashCracker` that the backend-switching
wrappers read or write: `self.backend`, and whether `self.service` is
configured. -/
structure CrackerState where
  backend : Option Backend
  service : Bool
deriving DecidableEq

/-- `quantum_search_aer`: save `self.backend`, install a fresh Aer simulator,
run `quantum_search` — modelled as an arbitrary state transformer `qs`, since
it drives external circuit execution and may itself write `self.backend` —
then restore the saved backend and return the result. -/
def quantum_search_aer (qs : CrackerState → SearchResult × CrackerState)
    (s : CrackerState) : SearchResult × CrackerState :=
  let old := s.backend
  let r := qs (CrackerState.mk (some Backend.aer) s.service)
  (r.1, CrackerState.mk old r.2.service)

/-- `quantum_search_ibm`: return `(False, None, 0, {})` untouched when no IBM
service is configured; otherwise save `self.backend`, install the named
backend, run `quantum_search`, restore the saved backend, and return. -/
def quantum_search_ibm (qs : CrackerState → SearchResult × CrackerState)
    (s : CrackerState) (backendName : String) : SearchResult × CrackerState :=
  if s.service = false then ((false, none, 0, []), s)
  else
    let old := s.backend
    let r := qs (CrackerState.mk (some (Backend.ibm backendName)) s.service)
    (r.1, CrackerState.mk old r.2.service)

/-- Claim C9: whatever `quantum_search` does to the state and whatever result
it produces, after `quantum_search_aer` (or `quantum_search_ibm`) returns,
`self.backend` equals the value it had immediately before the call. -/
theorem backend_restored (qs : CrackerState → SearchResult × CrackerState)
    (s : CrackerState) (backendName : String) :
    (quantum_search_aer qs s).2.backend = s.backend ∧
    (quantum_search_ibm qs s backendName).2.backend = s.backend := by
  refine ⟨rfl, ?_⟩
  by_cases hs : s.service = false
  · simp [quantum_search_ibm, hs]
  · simp [quantum_search_ibm, hs]

/-! ### Claim C10: classical brute force enumeration order -/

/-- All candidate strings of the given length in the enumeration order of
`itertools.product(self.charset, repeat=length)`: the first symbol varies
slowest. -/
def allStrings (cs : List Char) : ℕ → List (List Char)
  | 0 => [[]]
  | L + 1 => cs.flatMap (fun c => (allStrings cs L).map (fun s => c :: s))

/-- Scanning loop of `classical_bruteforce`: bump the attempt counter, test
the candidate's digest, stop at the first match. Returns the matching
candidate with the attempt count, `none` when nothing matches. -/
def bfAux (p : List Char → Bool) : List (List Char) → ℕ → Option (List Char × ℕ)
  | [], _ => none
  | cand :: rest, attempts =>
      if p cand then some (cand, attempts + 1) else bfAux p rest (attempts + 1)

/-- `classical_bruteforce` with the digest comparison abstracted into the
predicate `p` (the code tests `simple_hash(candidate) == target_hash`). -/
def classical_bruteforce (p : List Char → Bool) (cs : List Char) (length : ℕ) :
    Option (List Char × ℕ) :=
  bfAux p (allStrings cs length) 0

theorem flatMap_congr_local {α β : Type} (l : List α) (f g : α → List β)
    (h : ∀ a ∈ l, f a = g a) : l.flatMap f = l.flatMap g := by
  induction l with
  | nil => rfl
  | cons a l ih =>
      simp only [List.flatMap_cons, h a (List.mem_cons_self a l),
        ih (fun x hx => h x (List.mem_cons_of_mem a hx))]

theorem allStrings_length_mem (cs : List Char) (L : ℕ) :
    ∀ s ∈ allStrings cs L, s.length = L := by
  induction L with
  | zero =>
      intro s hs
      simp only [allStrings, List.mem_singleton] at hs
      simp [hs]
  | succ L ih =>
      intro s hs
      simp only [allStrings, List.mem_flatMap, List.mem_map] at hs
      obtain ⟨c, _, t, ht, rfl⟩ := hs
      simp [ih t ht]

theorem indexOf_map_self (cs : List Char) (hnd : cs.Nodup) :
    cs.map (fun c => cs.indexOf c) = List.range cs.length := by
  apply List.ext_get
  · simp
  · intro i h1 h2
    simp only [List.get_eq_getElem, List.getElem_map, List.getElem_range]
    exact List.indexOf_getElem hnd i (by simpa using h1)

theorem range_mul_flatMap (a b : ℕ) :
    List.range (a * b) =
      (List.range a).flatMap (fun j => (List.range b).map (fun i => j * b + i)) := by
  induction a with
  | zero => simp
  | succ a ih =>
      rw [List.range_succ, List.flatMap_append, ← ih, Nat.succ_mul, List.range_add]
      simp [List.flatMap_cons]

theorem allStrings_map_t2i (cs : List Char) (hnd : cs.Nodup) (L : ℕ) :
    (allStrings cs L).map (text_to_index cs) = List.range (cs.length ^ L) := by
  induction L with
  | zero =>
      have h1 : List.range 1 = [0] := by decide
      simp [allStrings, pow_zero, h1, text_to_index, t2iAux]
  | succ L ih =>
      rw [pow_succ', range_mul_flatMap cs.length (cs.length ^ L)]
      unfold allStrings
      rw [List.map_flatMap]
      have hinner : ∀ c ∈ cs,
          (((allStrings cs L).map (fun s => c :: s)).map (text_to_index cs)) =
            (List.range (cs.length ^ L)).map
              (fun i => cs.indexOf c * cs.length ^ L + i) := by
        intro c _
        rw [List.map_map, ← ih, List.map_map]
        apply List.map_congr_left
        intro s hs
        simp only [Function.comp_apply]
        rw [text_to_index_cons, allStrings_length_mem cs L s hs]
      calc (cs.flatMap fun c =>
              ((allStrings cs L).map (fun s => c :: s)).map (text_to_index cs))
          = cs.flatMap (fun c => (List.range (cs.length ^ L)).map
              (fun i => cs.indexOf c * cs.length ^ L + i)) :=
            flatMap_congr_local _ _ _ hinner
        _ = (cs.map (fun c => cs.indexOf c)).flatMap
              (fun j => (List.range (cs.length ^ L)).map
                (fun i => j * cs.length ^ L + i)) := by
            rw [List.flatMap_map]
        _ = (List.range cs.length).flatMap
              (fun j => (List.range (cs.length ^ L)).map
                (fun i => j * cs.length ^ L + i)) := by
            rw [indexOf_map_self cs hnd]

theorem bfAux_spec (p : List Char → Bool) :
    ∀ (l : List (List Char)) (a : ℕ) (s : List Char) (att : ℕ),
    bfAux p l a = some (s, att) →
    ∃ i, ∃ hi : i < l.length, l.get ⟨i, hi⟩ = s ∧ att = a + i + 1 ∧ p s = true := by
  intro l
  induction l with
  | nil =>
      intro a s att h
      simp [bfAux] at h
  | cons t rest ih =>
      intro a s att h
      by_cases hp : p t = true
      · simp only [bfAux, if_pos hp] at h
        have hinj := Option.some.inj h
        have hts : t = s := congrArg Prod.fst hinj
        have hatt : a + 1 = att := congrArg Prod.snd hinj
        subst hts
        exact ⟨0, Nat.succ_pos _, rfl, by omega, hp⟩
      · simp only [bfAux, if_neg hp] at h
        obtain ⟨i, hi, hget, hatt, hps⟩ := ih (a + 1) s att h
        refine ⟨i + 1, Nat.succ_lt_succ hi, ?_, by omega, hps⟩
        exact hget

/-- Claim C10: when the brute-force scan finds a candidate `s`, the attempt
count it reports is `text_to_index s + 1`, because `itertools.product`
enumerates candidates in exactly the ascending mixed-radix index order that
`text_to_index` assigns. -/
theorem bruteforce_attempts (cs : List Char) (hnd : cs.Nodup)
    (p : List Char → Bool) (L : ℕ) (s : List Char) (att : ℕ)
    (h : classical_bruteforce p cs L = some (s, att)) :
    p s = true ∧ att = text_to_index cs s + 1 := by
  obtain ⟨i, hi, hget, hatt, hps⟩ := bfAux_spec p (allStrings cs L) 0 s att h
  refine ⟨hps, ?_⟩
  have hmap := allStrings_map_t2i cs hnd L
  have hlen : (allStrings cs L).length = cs.length ^ L := by
    have hl := congrArg List.length hmap
    simpa using hl
  have hiN : i < cs.length ^ L := hlen ▸ hi
  have hgd := congrArg (fun t => t.getD i 0) hmap
  simp only at hgd
  rw [List.getD_eq_getElem _ _ (by simpa using hi),
    List.getD_eq_getElem _ _ (by simpa using hiN)] at hgd
  rw [List.getElem_map, List.getElem_range] at hgd
  have hs : (allStrings cs L)[i] = s := by
    rw [← hget]
    simp [List.get_eq_getElem]
  rw [hs] at hgd
  omega

/-- Witness for `bruteforce_attempts` over the 2-symbol alphabet `ab` with
length 2: the candidate `"ba"` is found on attempt 3, and its index is 2. -/
theorem bruteforce_attempts_witness :
    (['a', 'b'] : List Char).Nodup ∧
    classical_bruteforce (fun s => s == ['b', 'a']) ['a', 'b'] 2 =
      some (['b', 'a'], 3) ∧
    ((fun s => s == ['b', 'a']) ['b', 'a'] = true ∧
      3 = text_to_index ['a', 'b'] ['b', 'a'] + 1) :=
  ⟨by decide, by decide,
    bruteforce_attempts ['a', 'b'] (by decide) (fun s => s == ['b', 'a']) 2
      ['b', 'a'] 3 (by decide)⟩

end GroverDemo
